import Mathlib

/-!
Verification development for the N-body simulation engine:
the direct O(N^2) gravitational force evaluator with softening,
the semi-implicit Euler time integrator, the binary-system initial
condition generator, and the benchmark harness's normalized L2 error
metric.  Floating-point arithmetic is modelled over the reals; the
divisions the code performs are additionally tracked by "checked"
variants that return none exactly when a denominator the code divides
by is zero.
-/

/-- 3-component vector (x, y, z), as in the source vec3 template. -/
structure vec3 where
  x : ℝ
  y : ℝ
  z : ℝ

/-- 4-component vector (x, y, z, w); w carries the mass of a body. -/
structure vec4 where
  x : ℝ
  y : ℝ
  z : ℝ
  w : ℝ

/-- Softening parameter of the direct evaluator. -/
noncomputable def softening : ℝ := 0.1

/-- Squared distance between bodies i and j plus softening squared:
dx*dx + dy*dy + dz*dz + softening*softening. -/
noncomputable def distSqr (pos : ℕ → vec4) (i j : ℕ) : ℝ :=
  ((pos j).x - (pos i).x) * ((pos j).x - (pos i).x) +
  ((pos j).y - (pos i).y) * ((pos j).y - (pos i).y) +
  ((pos j).z - (pos i).z) * ((pos j).z - (pos i).z) +
  softening * softening

/-- One inner-loop iteration of calculateAccelerations: contribution of
body j to the running acceleration of body i (self-interaction skipped). -/
noncomputable def accelStep (pos : ℕ → vec4) (i : ℕ) (acc : vec3) (j : ℕ) : vec3 :=
  if i = j then acc
  else
    ⟨acc.x + ((pos j).x - (pos i).x) *
        ((pos j).w * ((1 / Real.sqrt (distSqr pos i j)) *
          (1 / Real.sqrt (distSqr pos i j)) * (1 / Real.sqrt (distSqr pos i j)))),
     acc.y + ((pos j).y - (pos i).y) *
        ((pos j).w * ((1 / Real.sqrt (distSqr pos i j)) *
          (1 / Real.sqrt (distSqr pos i j)) * (1 / Real.sqrt (distSqr pos i j)))),
     acc.z + ((pos j).z - (pos i).z) *
        ((pos j).w * ((1 / Real.sqrt (distSqr pos i j)) *
          (1 / Real.sqrt (distSqr pos i j)) * (1 / Real.sqrt (distSqr pos i j))))⟩

/-- The direct force evaluator: entry i of the output acceleration array.
Entries below n are zeroed and then accumulated over all j < n by the
inner loop; entries at or above n keep their previous value. -/
noncomputable def calculateAccelerations (n : ℕ) (pos : ℕ → vec4) (accl : ℕ → vec3) (i : ℕ) : vec3 :=
  if i < n then (List.range n).foldl (accelStep pos i) ⟨0, 0, 0⟩ else accl i

/-- The mathematical contribution of body j to body i's acceleration,
zero on the diagonal. -/
noncomputable def pairAccel (pos : ℕ → vec4) (i j : ℕ) : vec3 :=
  if i = j then ⟨0, 0, 0⟩
  else
    ⟨((pos j).x - (pos i).x) *
        ((pos j).w * ((1 / Real.sqrt (distSqr pos i j)) *
          (1 / Real.sqrt (distSqr pos i j)) * (1 / Real.sqrt (distSqr pos i j)))),
     ((pos j).y - (pos i).y) *
        ((pos j).w * ((1 / Real.sqrt (distSqr pos i j)) *
          (1 / Real.sqrt (distSqr pos i j)) * (1 / Real.sqrt (distSqr pos i j)))),
     ((pos j).z - (pos i).z) *
        ((pos j).w * ((1 / Real.sqrt (distSqr pos i j)) *
          (1 / Real.sqrt (distSqr pos i j)) * (1 / Real.sqrt (distSqr pos i j))))⟩

lemma accelStep_eq_pair (pos : ℕ → vec4) (i : ℕ) (acc : vec3) (j : ℕ) :
    accelStep pos i acc j =
      ⟨acc.x + (pairAccel pos i j).x, acc.y + (pairAccel pos i j).y,
       acc.z + (pairAccel pos i j).z⟩ := by
  unfold accelStep pairAccel
  by_cases h : i = j
  · simp [h]
  · simp [h]

lemma foldl_accelStep (pos : ℕ → vec4) (i : ℕ) (n : ℕ) (acc : vec3) :
    (List.range n).foldl (accelStep pos i) acc =
      ⟨acc.x + ∑ j ∈ Finset.range n, (pairAccel pos i j).x,
       acc.y + ∑ j ∈ Finset.range n, (pairAccel pos i j).y,
       acc.z + ∑ j ∈ Finset.range n, (pairAccel pos i j).z⟩ := by
  induction n with
  | zero => simp
  | succ m ih =>
      rw [List.range_succ, List.foldl_append, ih]
      simp only [List.foldl_cons, List.foldl_nil, accelStep_eq_pair,
        Finset.sum_range_succ, vec3.mk.injEq]
      refine ⟨by ring, by ring, by ring⟩

lemma calculateAccelerations_eq_sum (n : ℕ) (pos : ℕ → vec4) (accl : ℕ → vec3)
    (i : ℕ) (h : i < n) :
    calculateAccelerations n pos accl i =
      ⟨∑ j ∈ Finset.range n, (pairAccel pos i j).x,
       ∑ j ∈ Finset.range n, (pairAccel pos i j).y,
       ∑ j ∈ Finset.range n, (pairAccel pos i j).z⟩ := by
  unfold calculateAccelerations
  rw [if_pos h, foldl_accelStep]
  simp

/-- One body's update in updateParticles: the velocity is updated first
from the current acceleration, then the position from the just-updated
velocity; the mass field w is copied through. -/
noncomputable def updateBody (p : vec4) (v a : vec3) (dt : ℝ) : vec4 × vec3 :=
  let velNew : vec3 := ⟨v.x + a.x * dt, v.y + a.y * dt, v.z + a.z * dt⟩
  let posNew : vec4 :=
    ⟨p.x + velNew.x * dt, p.y + velNew.y * dt, p.z + velNew.z * dt, p.w⟩
  (posNew, velNew)

/-- The time integrator over the first n bodies: returns the updated
position and velocity arrays; entries at or above n are untouched. -/
noncomputable def updateParticles (n : ℕ) (pos : ℕ → vec4) (vel accl : ℕ → vec3)
    (dt : ℝ) : (ℕ → vec4) × (ℕ → vec3) :=
  (fun i => if i < n then (updateBody (pos i) (vel i) (accl i) dt).1 else pos i,
   fun i => if i < n then (updateBody (pos i) (vel i) (accl i) dt).2 else vel i)

lemma distSqr_pos (pos : ℕ → vec4) (i j : ℕ) : 0 < distSqr pos i j := by
  have hx := mul_self_nonneg ((pos j).x - (pos i).x)
  have hy := mul_self_nonneg ((pos j).y - (pos i).y)
  have hz := mul_self_nonneg ((pos j).z - (pos i).z)
  have hs : softening * softening = 0.01 := by norm_num [softening]
  unfold distSqr
  rw [hs]
  linarith

lemma sqrt_distSqr_pos (pos : ℕ → vec4) (i j : ℕ) :
    0 < Real.sqrt (distSqr pos i j) :=
  Real.sqrt_pos.mpr (distSqr_pos pos i j)

lemma rpow_three_halves_eq (d : ℝ) (hd : 0 < d) :
    d ^ (1.5 : ℝ) = Real.sqrt d * Real.sqrt d * Real.sqrt d := by
  have h1 : d ^ (1.5 : ℝ) = (d ^ ((1 : ℝ) / 2)) ^ (3 : ℕ) := by
    rw [← Real.rpow_natCast (d ^ ((1 : ℝ) / 2)) 3, ← Real.rpow_mul hd.le]
    norm_num
  rw [h1, ← Real.sqrt_eq_rpow]
  ring

lemma pairAccel_x_eq (pos : ℕ → vec4) (i j : ℕ) (h : j ≠ i) :
    (pairAccel pos i j).x =
      ((pos j).x - (pos i).x) * (pos j).w / distSqr pos i j ^ (1.5 : ℝ) := by
  unfold pairAccel
  rw [if_neg (Ne.symm h)]
  have hs := sqrt_distSqr_pos pos i j
  rw [rpow_three_halves_eq _ (distSqr_pos pos i j)]
  field_simp

lemma pairAccel_y_eq (pos : ℕ → vec4) (i j : ℕ) (h : j ≠ i) :
    (pairAccel pos i j).y =
      ((pos j).y - (pos i).y) * (pos j).w / distSqr pos i j ^ (1.5 : ℝ) := by
  unfold pairAccel
  rw [if_neg (Ne.symm h)]
  have hs := sqrt_distSqr_pos pos i j
  rw [rpow_three_halves_eq _ (distSqr_pos pos i j)]
  field_simp

lemma pairAccel_z_eq (pos : ℕ → vec4) (i j : ℕ) (h : j ≠ i) :
    (pairAccel pos i j).z =
      ((pos j).z - (pos i).z) * (pos j).w / distSqr pos i j ^ (1.5 : ℝ) := by
  unfold pairAccel
  rw [if_neg (Ne.symm h)]
  have hs := sqrt_distSqr_pos pos i j
  rw [rpow_three_halves_eq _ (distSqr_pos pos i j)]
  field_simp

lemma sum_pairAccel_erase_x (n : ℕ) (pos : ℕ → vec4) (i : ℕ) :
    ∑ j ∈ Finset.range n, (pairAccel pos i j).x =
      ∑ j ∈ (Finset.range n).erase i,
        ((pos j).x - (pos i).x) * (pos j).w / distSqr pos i j ^ (1.5 : ℝ) := by
  have hz : (fun j => (pairAccel pos i j).x) i = 0 := by simp [pairAccel]
  rw [← Finset.sum_erase (Finset.range n) hz]
  exact Finset.sum_congr rfl fun j hj =>
    pairAccel_x_eq pos i j (Finset.ne_of_mem_erase hj)

lemma sum_pairAccel_erase_y (n : ℕ) (pos : ℕ → vec4) (i : ℕ) :
    ∑ j ∈ Finset.range n, (pairAccel pos i j).y =
      ∑ j ∈ (Finset.range n).erase i,
        ((pos j).y - (pos i).y) * (pos j).w / distSqr pos i j ^ (1.5 : ℝ) := by
  have hz : (fun j => (pairAccel pos i j).y) i = 0 := by simp [pairAccel]
  rw [← Finset.sum_erase (Finset.range n) hz]
  exact Finset.sum_congr rfl fun j hj =>
    pairAccel_y_eq pos i j (Finset.ne_of_mem_erase hj)

lemma sum_pairAccel_erase_z (n : ℕ) (pos : ℕ → vec4) (i : ℕ) :
    ∑ j ∈ Finset.range n, (pairAccel pos i j).z =
      ∑ j ∈ (Finset.range n).erase i,
        ((pos j).z - (pos i).z) * (pos j).w / distSqr pos i j ^ (1.5 : ℝ) := by
  have hz : (fun j => (pairAccel pos i j).z) i = 0 := by simp [pairAccel]
  rw [← Finset.sum_erase (Finset.range n) hz]
  exact Finset.sum_congr rfl fun j hj =>
    pairAccel_z_eq pos i j (Finset.ne_of_mem_erase hj)

/-- Claim C1: for every body count and positions, the direct force
evaluator zeroes each in-range output entry and accumulates, over every
ordered pair (i, j) with i distinct from j, the contribution
(pos j - pos i) * mass j / (squared distance + softening^2) ^ 1.5;
the final acceleration of body i equals exactly this pairwise sum. -/
theorem direct_evaluator_pairwise_sum (n : ℕ) (pos : ℕ → vec4)
    (accl : ℕ → vec3) (i : ℕ) (h : i < n) :
    calculateAccelerations n pos accl i =
      ⟨∑ j ∈ (Finset.range n).erase i,
          ((pos j).x - (pos i).x) * (pos j).w / distSqr pos i j ^ (1.5 : ℝ),
       ∑ j ∈ (Finset.range n).erase i,
          ((pos j).y - (pos i).y) * (pos j).w / distSqr pos i j ^ (1.5 : ℝ),
       ∑ j ∈ (Finset.range n).erase i,
          ((pos j).z - (pos i).z) * (pos j).w / distSqr pos i j ^ (1.5 : ℝ)⟩ := by
  rw [calculateAccelerations_eq_sum n pos accl i h, sum_pairAccel_erase_x,
    sum_pairAccel_erase_y, sum_pairAccel_erase_z]

/-- Witness for Claim C1 at n = 2, i = 0, concrete positions. -/
theorem direct_evaluator_pairwise_sum_witness :
    (0 < 2) ∧
      calculateAccelerations 2 (fun k => ⟨k, 0, 0, 1⟩) (fun _ => ⟨0, 0, 0⟩) 0 =
        ⟨∑ j ∈ (Finset.range 2).erase 0,
            (((fun k : ℕ => (⟨k, 0, 0, 1⟩ : vec4)) j).x -
              ((fun k : ℕ => (⟨k, 0, 0, 1⟩ : vec4)) 0).x) *
              ((fun k : ℕ => (⟨k, 0, 0, 1⟩ : vec4)) j).w /
              distSqr (fun k => ⟨k, 0, 0, 1⟩) 0 j ^ (1.5 : ℝ),
         ∑ j ∈ (Finset.range 2).erase 0,
            (((fun k : ℕ => (⟨k, 0, 0, 1⟩ : vec4)) j).y -
              ((fun k : ℕ => (⟨k, 0, 0, 1⟩ : vec4)) 0).y) *
              ((fun k : ℕ => (⟨k, 0, 0, 1⟩ : vec4)) j).w /
              distSqr (fun k => ⟨k, 0, 0, 1⟩) 0 j ^ (1.5 : ℝ),
         ∑ j ∈ (Finset.range 2).erase 0,
            (((fun k : ℕ => (⟨k, 0, 0, 1⟩ : vec4)) j).z -
              ((fun k : ℕ => (⟨k, 0, 0, 1⟩ : vec4)) 0).z) *
              ((fun k : ℕ => (⟨k, 0, 0, 1⟩ : vec4)) j).w /
              distSqr (fun k => ⟨k, 0, 0, 1⟩) 0 j ^ (1.5 : ℝ)⟩ :=
  ⟨by norm_num,
   direct_evaluator_pairwise_sum 2 (fun k => ⟨k, 0, 0, 1⟩) (fun _ => ⟨0, 0, 0⟩) 0
     (by norm_num)⟩

/-- Claim C3: one integrator step computes the new velocity
v + a * dt first, and the new position p + (v + a * dt) * dt from the
just-updated velocity (semi-implicit Euler, velocity before position). -/
theorem integrator_semi_implicit_euler (n : ℕ) (pos : ℕ → vec4)
    (vel accl : ℕ → vec3) (dt : ℝ) (i : ℕ) (h : i < n) :
    (updateParticles n pos vel accl dt).2 i =
      ⟨(vel i).x + (accl i).x * dt, (vel i).y + (accl i).y * dt,
       (vel i).z + (accl i).z * dt⟩ ∧
    (updateParticles n pos vel accl dt).1 i =
      ⟨(pos i).x + ((vel i).x + (accl i).x * dt) * dt,
       (pos i).y + ((vel i).y + (accl i).y * dt) * dt,
       (pos i).z + ((vel i).z + (accl i).z * dt) * dt, (pos i).w⟩ := by
  constructor
  · simp [updateParticles, updateBody, h]
  · simp [updateParticles, updateBody, h]

/-- Witness for Claim C3 at n = 1, i = 0, concrete state. -/
theorem integrator_semi_implicit_euler_witness :
    (0 < 1) ∧
      ((updateParticles 1 (fun _ => ⟨1, 2, 3, 4⟩) (fun _ => ⟨5, 6, 7⟩)
          (fun _ => ⟨8, 9, 10⟩) 2).2 0 =
        ⟨5 + 8 * 2, 6 + 9 * 2, 7 + 10 * 2⟩ ∧
       (updateParticles 1 (fun _ => ⟨1, 2, 3, 4⟩) (fun _ => ⟨5, 6, 7⟩)
          (fun _ => ⟨8, 9, 10⟩) 2).1 0 =
        ⟨1 + (5 + 8 * 2) * 2, 2 + (6 + 9 * 2) * 2, 3 + (7 + 10 * 2) * 2, 4⟩) :=
  ⟨by norm_num,
   integrator_semi_implicit_euler 1 (fun _ => ⟨1, 2, 3, 4⟩) (fun _ => ⟨5, 6, 7⟩)
     (fun _ => ⟨8, 9, 10⟩) 2 0 (by norm_num)⟩

/-- Claim C9: one application of the time integrator never modifies the
mass component (the w field) of any body's position. -/
theorem integrator_preserves_mass (n : ℕ) (pos : ℕ → vec4)
    (vel accl : ℕ → vec3) (dt : ℝ) (i : ℕ) :
    ((updateParticles n pos vel accl dt).1 i).w = (pos i).w := by
  by_cases h : i < n
  · simp [updateParticles, updateBody, h]
  · simp [updateParticles, h]

/-- Claim C10: with at most one body, the direct force evaluator leaves
every in-range acceleration at its zeroed value: a lone body never
self-accelerates. -/
theorem direct_evaluator_lone_body_zero (n : ℕ) (pos : ℕ → vec4)
    (accl : ℕ → vec3) (i : ℕ) (hn : n ≤ 1) (hi : i < n) :
    calculateAccelerations n pos accl i = ⟨0, 0, 0⟩ := by
  have h1 : n = 1 := by omega
  have h2 : i = 0 := by omega
  subst h1 h2
  simp [calculateAccelerations, List.range_succ, accelStep]

/-- Witness for Claim C10 at n = 1, i = 0, a concrete position array. -/
theorem direct_evaluator_lone_body_zero_witness :
    ((1 : ℕ) ≤ 1 ∧ (0 : ℕ) < 1) ∧
      calculateAccelerations 1 (fun _ => ⟨3, 4, 5, 6⟩) (fun _ => ⟨7, 8, 9⟩) 0 =
        ⟨0, 0, 0⟩ :=
  ⟨by norm_num,
   direct_evaluator_lone_body_zero 1 (fun _ => ⟨3, 4, 5, 6⟩) (fun _ => ⟨7, 8, 9⟩)
     0 (by norm_num) (by norm_num)⟩

lemma distSqr_symm (pos : ℕ → vec4) (i j : ℕ) :
    distSqr pos i j = distSqr pos j i := by
  unfold distSqr
  ring

lemma massPair_antisymm_x (pos : ℕ → vec4) (i j : ℕ) :
    (pos i).w * (pairAccel pos i j).x = -((pos j).w * (pairAccel pos j i).x) := by
  unfold pairAccel
  by_cases h : i = j
  · subst h
    simp
  · rw [if_neg h, if_neg fun hji => h hji.symm]
    dsimp only
    rw [distSqr_symm pos j i]
    ring

lemma massPair_antisymm_y (pos : ℕ → vec4) (i j : ℕ) :
    (pos i).w * (pairAccel pos i j).y = -((pos j).w * (pairAccel pos j i).y) := by
  unfold pairAccel
  by_cases h : i = j
  · subst h
    simp
  · rw [if_neg h, if_neg fun hji => h hji.symm]
    dsimp only
    rw [distSqr_symm pos j i]
    ring

lemma massPair_antisymm_z (pos : ℕ → vec4) (i j : ℕ) :
    (pos i).w * (pairAccel pos i j).z = -((pos j).w * (pairAccel pos j i).z) := by
  unfold pairAccel
  by_cases h : i = j
  · subst h
    simp
  · rw [if_neg h, if_neg fun hji => h hji.symm]
    dsimp only
    rw [distSqr_symm pos j i]
    ring

lemma sum_sum_antisymm (s : Finset ℕ) (f : ℕ → ℕ → ℝ)
    (hf : ∀ i j, f i j = -f j i) :
    ∑ i ∈ s, ∑ j ∈ s, f i j = 0 := by
  have h2 : (∑ i ∈ s, ∑ j ∈ s, f i j) + (∑ i ∈ s, ∑ j ∈ s, f j i) = 0 := by
    rw [← Finset.sum_add_distrib]
    apply Finset.sum_eq_zero
    intro i _
    rw [← Finset.sum_add_distrib]
    apply Finset.sum_eq_zero
    intro j _
    rw [hf i j]
    ring
  have h3 : (∑ i ∈ s, ∑ j ∈ s, f j i) = ∑ i ∈ s, ∑ j ∈ s, f i j :=
    Finset.sum_comm
  linarith

lemma weighted_accel_sum_x (n : ℕ) (pos : ℕ → vec4) (accl : ℕ → vec3) :
    ∑ i ∈ Finset.range n, (pos i).w * (calculateAccelerations n pos accl i).x = 0 := by
  have hcongr : ∀ i ∈ Finset.range n,
      (pos i).w * (calculateAccelerations n pos accl i).x =
        ∑ j ∈ Finset.range n, (pos i).w * (pairAccel pos i j).x := by
    intro i hi
    rw [calculateAccelerations_eq_sum n pos accl i (Finset.mem_range.mp hi)]
    dsimp only
    rw [Finset.mul_sum]
  rw [Finset.sum_congr rfl hcongr]
  exact sum_sum_antisymm _ _ (massPair_antisymm_x pos)

lemma weighted_accel_sum_y (n : ℕ) (pos : ℕ → vec4) (accl : ℕ → vec3) :
    ∑ i ∈ Finset.range n, (pos i).w * (calculateAccelerations n pos accl i).y = 0 := by
  have hcongr : ∀ i ∈ Finset.range n,
      (pos i).w * (calculateAccelerations n pos accl i).y =
        ∑ j ∈ Finset.range n, (pos i).w * (pairAccel pos i j).y := by
    intro i hi
    rw [calculateAccelerations_eq_sum n pos accl i (Finset.mem_range.mp hi)]
    dsimp only
    rw [Finset.mul_sum]
  rw [Finset.sum_congr rfl hcongr]
  exact sum_sum_antisymm _ _ (massPair_antisymm_y pos)

lemma weighted_accel_sum_z (n : ℕ) (pos : ℕ → vec4) (accl : ℕ → vec3) :
    ∑ i ∈ Finset.range n, (pos i).w * (calculateAccelerations n pos accl i).z = 0 := by
  have hcongr : ∀ i ∈ Finset.range n,
      (pos i).w * (calculateAccelerations n pos accl i).z =
        ∑ j ∈ Finset.range n, (pos i).w * (pairAccel pos i j).z := by
    intro i hi
    rw [calculateAccelerations_eq_sum n pos accl i (Finset.mem_range.mp hi)]
    dsimp only
    rw [Finset.mul_sum]
  rw [Finset.sum_congr rfl hcongr]
  exact sum_sum_antisymm _ _ (massPair_antisymm_z pos)

/-- Claim C4: the direct evaluator's accelerations satisfy
sum of mass i * accel i = 0 in each component, and consequently one
integrator step with those accelerations leaves the total momentum
sum of mass i * vel i unchanged. -/
theorem momentum_conserved (n : ℕ) (pos : ℕ → vec4) (accl0 vel : ℕ → vec3)
    (dt : ℝ) :
    (∑ i ∈ Finset.range n,
        (pos i).w * (calculateAccelerations n pos accl0 i).x = 0) ∧
    (∑ i ∈ Finset.range n,
        (pos i).w * (calculateAccelerations n pos accl0 i).y = 0) ∧
    (∑ i ∈ Finset.range n,
        (pos i).w * (calculateAccelerations n pos accl0 i).z = 0) ∧
    (∑ i ∈ Finset.range n,
        (((updateParticles n pos vel (calculateAccelerations n pos accl0) dt).1 i).w *
          ((updateParticles n pos vel (calculateAccelerations n pos accl0) dt).2 i).x) =
      ∑ i ∈ Finset.range n, (pos i).w * (vel i).x) ∧
    (∑ i ∈ Finset.range n,
        (((updateParticles n pos vel (calculateAccelerations n pos accl0) dt).1 i).w *
          ((updateParticles n pos vel (calculateAccelerations n pos accl0) dt).2 i).y) =
      ∑ i ∈ Finset.range n, (pos i).w * (vel i).y) ∧
    (∑ i ∈ Finset.range n,
        (((updateParticles n pos vel (calculateAccelerations n pos accl0) dt).1 i).w *
          ((updateParticles n pos vel (calculateAccelerations n pos accl0) dt).2 i).z) =
      ∑ i ∈ Finset.range n, (pos i).w * (vel i).z) := by
  refine ⟨weighted_accel_sum_x n pos accl0, weighted_accel_sum_y n pos accl0,
    weighted_accel_sum_z n pos accl0, ?_, ?_, ?_⟩
  · have hcongr : ∀ i ∈ Finset.range n,
        (((updateParticles n pos vel (calculateAccelerations n pos accl0) dt).1 i).w *
          ((updateParticles n pos vel (calculateAccelerations n pos accl0) dt).2 i).x) =
          (pos i).w * (vel i).x +
            (pos i).w * (calculateAccelerations n pos accl0 i).x * dt := by
      intro i hi
      have h := Finset.mem_range.mp hi
      simp only [updateParticles, updateBody, if_pos h]
      ring
    rw [Finset.sum_congr rfl hcongr, Finset.sum_add_distrib,
      ← Finset.sum_mul, weighted_accel_sum_x n pos accl0]
    ring
  · have hcongr : ∀ i ∈ Finset.range n,
        (((updateParticles n pos vel (calculateAccelerations n pos accl0) dt).1 i).w *
          ((updateParticles n pos vel (calculateAccelerations n pos accl0) dt).2 i).y) =
          (pos i).w * (vel i).y +
            (pos i).w * (calculateAccelerations n pos accl0 i).y * dt := by
      intro i hi
      have h := Finset.mem_range.mp hi
      simp only [updateParticles, updateBody, if_pos h]
      ring
    rw [Finset.sum_congr rfl hcongr, Finset.sum_add_distrib,
      ← Finset.sum_mul, weighted_accel_sum_y n pos accl0]
    ring
  · have hcongr : ∀ i ∈ Finset.range n,
        (((updateParticles n pos vel (calculateAccelerations n pos accl0) dt).1 i).w *
          ((updateParticles n pos vel (calculateAccelerations n pos accl0) dt).2 i).z) =
          (pos i).w * (vel i).z +
            (pos i).w * (calculateAccelerations n pos accl0 i).z * dt := by
      intro i hi
      have h := Finset.mem_range.mp hi
      simp only [updateParticles, updateBody, if_pos h]
      ring
    rw [Finset.sum_congr rfl hcongr, Finset.sum_add_distrib,
      ← Finset.sum_mul, weighted_accel_sum_z n pos accl0]
    ring

/-- Checked inner-loop iteration: returns none when the square root the
code divides by (1.0 / sqrt(distSqr)) is zero, otherwise the same value
as accelStep. -/
noncomputable def accelStepChecked (pos : ℕ → vec4) (i : ℕ) (acc : vec3)
    (j : ℕ) : Option vec3 :=
  if i = j then some acc
  else if Real.sqrt (distSqr pos i j) = 0 then none
  else some (accelStep pos i acc j)

/-- Checked direct force evaluator: propagates a division-by-zero
failure from any inner iteration. -/
noncomputable def calculateAccelerationsChecked (n : ℕ) (pos : ℕ → vec4)
    (accl : ℕ → vec3) (i : ℕ) : Option vec3 :=
  if i < n then
    (List.range n).foldl
      (fun oacc j => oacc.bind fun acc => accelStepChecked pos i acc j)
      (some ⟨0, 0, 0⟩)
  else some (accl i)

lemma accelStepChecked_eq_some (pos : ℕ → vec4) (i : ℕ) (acc : vec3) (j : ℕ) :
    accelStepChecked pos i acc j = some (accelStep pos i acc j) := by
  unfold accelStepChecked
  by_cases h : i = j
  · rw [if_pos h]
    unfold accelStep
    rw [if_pos h]
  · rw [if_neg h, if_neg (sqrt_distSqr_pos pos i j).ne']

lemma foldl_bind_checked (pos : ℕ → vec4) (i : ℕ) :
    ∀ (l : List ℕ) (acc : vec3),
      l.foldl (fun oacc j => oacc.bind fun a => accelStepChecked pos i a j)
          (some acc) =
        some (l.foldl (accelStep pos i) acc) := by
  intro l
  induction l with
  | nil => intro acc; rfl
  | cons j t ih =>
      intro acc
      rw [List.foldl_cons, List.foldl_cons]
      have h1 : ((some acc).bind fun a => accelStepChecked pos i a j) =
          some (accelStep pos i acc j) := by
        rw [Option.some_bind, accelStepChecked_eq_some]
      rw [h1]
      exact ih (accelStep pos i acc j)

/-- Claim C5: for at least two bodies, finite positions and non-negative
masses, every acceleration the direct evaluator produces is finite: the
softening term keeps every denominator away from zero, so the checked
evaluation never fails and agrees with the unchecked one. -/
theorem direct_evaluator_finite (n : ℕ) (pos : ℕ → vec4) (accl : ℕ → vec3)
    (i : ℕ) (hn : 2 ≤ n) (hm : ∀ k, 0 ≤ (pos k).w) (hi : i < n) :
    calculateAccelerationsChecked n pos accl i =
      some (calculateAccelerations n pos accl i) := by
  unfold calculateAccelerationsChecked calculateAccelerations
  rw [if_pos hi, if_pos hi]
  exact foldl_bind_checked pos i (List.range n) ⟨0, 0, 0⟩

/-- Witness for Claim C5 at n = 2 with two coincident unit masses. -/
theorem direct_evaluator_finite_witness :
    ((2 : ℕ) ≤ 2 ∧ (∀ k : ℕ, (0 : ℝ) ≤ ((fun _ : ℕ => (⟨0, 0, 0, 1⟩ : vec4)) k).w) ∧
        (0 : ℕ) < 2) ∧
      calculateAccelerationsChecked 2 (fun _ => ⟨0, 0, 0, 1⟩) (fun _ => ⟨0, 0, 0⟩) 0 =
        some (calculateAccelerations 2 (fun _ => ⟨0, 0, 0, 1⟩) (fun _ => ⟨0, 0, 0⟩) 0) :=
  ⟨⟨by norm_num, fun k => by norm_num, by norm_num⟩,
   direct_evaluator_finite 2 (fun _ => ⟨0, 0, 0, 1⟩) (fun _ => ⟨0, 0, 0⟩) 0
     (by norm_num) (fun k => by norm_num) (by norm_num)⟩

/-- Per-body squared difference between reference and approximate
acceleration, as accumulated by the harness ("difference"). -/
noncomputable def difference (a d : vec3) : ℝ :=
  (a.x - d.x) * (a.x - d.x) + (a.y - d.y) * (a.y - d.y) +
  (a.z - d.z) * (a.z - d.z)

/-- Squared magnitude of the reference acceleration ("normalizer"). -/
noncomputable def normalizer (a : vec3) : ℝ :=
  a.x * a.x + a.y * a.y + a.z * a.z

/-- One iteration of the harness's error loop:
L2norm += difference / normalizer / numParticles. -/
noncomputable def l2Step (n : ℕ) (ref approx : ℕ → vec3) (acc : ℝ) (i : ℕ) : ℝ :=
  acc + difference (ref i) (approx i) / normalizer (ref i) / (n : ℝ)

/-- The accumulated error sum over all n bodies, starting from 0. -/
noncomputable def l2Sum (n : ℕ) (ref approx : ℕ → vec3) : ℝ :=
  (List.range n).foldl (l2Step n ref approx) 0

/-- The scalar L2 error the harness reports: sqrt of the accumulator. -/
noncomputable def L2norm (n : ℕ) (ref approx : ℕ → vec3) : ℝ :=
  Real.sqrt (l2Sum n ref approx)

/-- Checked error-loop iteration: none when the normalizer the code
divides by is zero. -/
noncomputable def l2StepChecked (n : ℕ) (ref approx : ℕ → vec3) (acc : ℝ)
    (i : ℕ) : Option ℝ :=
  if normalizer (ref i) = 0 then none else some (l2Step n ref approx acc i)

/-- Checked accumulated error sum. -/
noncomputable def l2SumChecked (n : ℕ) (ref approx : ℕ → vec3) : Option ℝ :=
  (List.range n).foldl
    (fun oacc i => oacc.bind fun acc => l2StepChecked n ref approx acc i)
    (some 0)

/-- Checked scalar L2 error. -/
noncomputable def L2normChecked (n : ℕ) (ref approx : ℕ → vec3) : Option ℝ :=
  (l2SumChecked n ref approx).map Real.sqrt

/-- Modelled from the spec: the documented error formula of section 4.5,
the sum over bodies of per-body relative squared error, divided by N
after summation, then square-rooted. -/
noncomputable def L2specFormula (n : ℕ) (ref approx : ℕ → vec3) : ℝ :=
  Real.sqrt
    ((∑ i ∈ Finset.range n, difference (ref i) (approx i) / normalizer (ref i)) /
      (n : ℝ))

lemma foldl_add_range (g : ℕ → ℝ) (n : ℕ) (a : ℝ) :
    (List.range n).foldl (fun acc i => acc + g i) a =
      a + ∑ i ∈ Finset.range n, g i := by
  induction n with
  | zero => simp
  | succ m ih =>
      rw [List.range_succ, List.foldl_append, ih]
      simp only [List.foldl_cons, List.foldl_nil, Finset.sum_range_succ]
      ring

lemma l2Sum_eq_sum (n : ℕ) (ref approx : ℕ → vec3) :
    l2Sum n ref approx =
      ∑ i ∈ Finset.range n,
        difference (ref i) (approx i) / normalizer (ref i) / (n : ℝ) := by
  have h := foldl_add_range
    (fun i => difference (ref i) (approx i) / normalizer (ref i) / (n : ℝ)) n 0
  unfold l2Sum l2Step
  rw [h]
  ring

/-- Claim C7: the error value the harness computes, dividing by
numParticles inside the per-body accumulation, equals the documented
formula that divides by N after summation; in exact arithmetic the two
division placements agree. -/
theorem l2_division_placement_equiv (n : ℕ) (ref approx : ℕ → vec3)
    (hn : 1 ≤ n) (hnz : ∀ i, i < n → normalizer (ref i) ≠ 0) :
    L2norm n ref approx = L2specFormula n ref approx := by
  unfold L2norm L2specFormula
  rw [l2Sum_eq_sum, Finset.sum_div]

/-- Witness for Claim C7 at n = 1 with a unit reference acceleration. -/
theorem l2_division_placement_equiv_witness :
    ((1 : ℕ) ≤ 1 ∧
        (∀ i : ℕ, i < 1 →
          normalizer ((fun _ : ℕ => (⟨1, 0, 0⟩ : vec3)) i) ≠ 0)) ∧
      L2norm 1 (fun _ => ⟨1, 0, 0⟩) (fun _ => ⟨0, 0, 0⟩) =
        L2specFormula 1 (fun _ => ⟨1, 0, 0⟩) (fun _ => ⟨0, 0, 0⟩) :=
  ⟨⟨le_rfl, fun i _ => by norm_num [normalizer]⟩,
   l2_division_placement_equiv 1 (fun _ => ⟨1, 0, 0⟩) (fun _ => ⟨0, 0, 0⟩)
     le_rfl (fun i _ => by norm_num [normalizer])⟩

/-- Claim C2: the harness has no special case for a body whose reference
acceleration is zero while the approximate one is nonzero; at such a
body the accumulated term divides by a zero normalizer, so the checked
evaluation of the aggregate metric fails instead of staying finite. -/
theorem l2_zero_reference_diverges :
    L2normChecked 1 (fun _ => ⟨0, 0, 0⟩) (fun _ => ⟨1, 0, 0⟩) = none := by
  unfold L2normChecked l2SumChecked l2StepChecked
  rw [List.range_succ]
  simp [normalizer]

/-- Counterexample to Claim C6 as stated: with N = 1 and identical
acceleration arrays whose single entry is the zero vector, the harness
divides 0 by the zero normalizer, so the computed error is not the
number 0. -/
theorem l2_identical_arrays_cex :
    L2normChecked 1 (fun _ => ⟨0, 0, 0⟩) (fun _ => ⟨0, 0, 0⟩) ≠ some 0 := by
  have h : L2normChecked 1 (fun _ => ⟨0, 0, 0⟩) (fun _ => ⟨0, 0, 0⟩) = none := by
    unfold L2normChecked l2SumChecked l2StepChecked
    rw [List.range_succ]
    simp [normalizer]
  rw [h]
  exact fun hc => Option.noConfusion hc

lemma difference_self (v : vec3) : difference v v = 0 := by
  unfold difference
  ring

lemma l2SumChecked_identical (n : ℕ) (ref approx : ℕ → vec3)
    (hnz : ∀ i, i < n → normalizer (ref i) ≠ 0)
    (heq : ∀ i, i < n → approx i = ref i) :
    l2SumChecked n ref approx = some 0 := by
  unfold l2SumChecked
  have key : ∀ (l : List ℕ), (∀ i ∈ l, i < n) → ∀ (a : ℝ),
      l.foldl (fun oacc i => oacc.bind fun acc => l2StepChecked n ref approx acc i)
          (some a) = some a := by
    intro l
    induction l with
    | nil => intro _ a; rfl
    | cons i t ih =>
        intro hmem a
        have hi : i < n := hmem i (List.mem_cons_self i t)
        rw [List.foldl_cons, Option.some_bind]
        have hstep : l2StepChecked n ref approx a i = some a := by
          unfold l2StepChecked
          rw [if_neg (hnz i hi)]
          unfold l2Step
          rw [heq i hi, difference_self, zero_div, zero_div, add_zero]
        rw [hstep]
        exact ih (fun j hj => hmem j (List.mem_cons_of_mem i hj)) a
  exact key (List.range n) (fun i hi => List.mem_range.mp hi) 0

/-- Claim C6 amended: for every N at least 1, if the approximate and
reference acceleration arrays are identical and every reference entry
has nonzero squared magnitude, the harness's L2 error is exactly 0. -/
theorem l2_identical_arrays_zero (n : ℕ) (ref approx : ℕ → vec3)
    (hn : 1 ≤ n) (hnz : ∀ i, i < n → normalizer (ref i) ≠ 0)
    (heq : ∀ i, i < n → approx i = ref i) :
    L2normChecked n ref approx = some 0 := by
  unfold L2normChecked
  rw [l2SumChecked_identical n ref approx hnz heq]
  simp

/-- Witness for the amended Claim C6 at n = 1 with a nonzero entry. -/
theorem l2_identical_arrays_zero_witness :
    ((1 : ℕ) ≤ 1 ∧
        (∀ i : ℕ, i < 1 →
          normalizer ((fun _ : ℕ => (⟨1, 0, 0⟩ : vec3)) i) ≠ 0) ∧
        (∀ i : ℕ, i < 1 →
          (fun _ : ℕ => (⟨1, 0, 0⟩ : vec3)) i = (fun _ : ℕ => (⟨1, 0, 0⟩ : vec3)) i)) ∧
      L2normChecked 1 (fun _ => ⟨1, 0, 0⟩) (fun _ => ⟨1, 0, 0⟩) = some 0 :=
  ⟨⟨le_rfl, fun i _ => by norm_num [normalizer], fun i _ => rfl⟩,
   l2_identical_arrays_zero 1 (fun _ => ⟨1, 0, 0⟩) (fun _ => ⟨1, 0, 0⟩) le_rfl
     (fun i _ => by norm_num [normalizer]) (fun i _ => rfl)⟩

/-- Gravitational constant of the simulation source. -/
noncomputable def G : ℝ := 6.67430e-11

/-- Position-and-mass entry written by initializeParticles for the
BINARY_SYSTEM configuration at index i.  The random draws of the
planet loop (polar angle, radius in [3, 10], the extra angle draw used
for the z offset, and the mass in [0.1, 0.5]) are passed in as streams
indexed by the body. -/
noncomputable def initializeParticlesBinaryPos (angle radius zang massd : ℕ → ℝ)
    (i : ℕ) : vec4 :=
  if i = 0 then ⟨-2, 0, 0, 50⟩
  else if i = 1 then ⟨2, 0, 0, 50⟩
  else
    ⟨radius i * Real.cos (angle i), radius i * Real.sin (angle i),
     (zang i - Real.pi) * 0.1, massd i⟩

/-- Velocity entry written by initializeParticles for the BINARY_SYSTEM
configuration at index i; the combined central mass is 50 + 50. -/
noncomputable def initializeParticlesBinaryVel (angle radius : ℕ → ℝ)
    (i : ℕ) : vec3 :=
  if i = 0 then ⟨0, -1, 0⟩
  else if i = 1 then ⟨0, 1, 0⟩
  else
    ⟨-(Real.sqrt (G * (50 + 50) / radius i) * 0.7) * Real.sin (angle i),
     Real.sqrt (G * (50 + 50) / radius i) * 0.7 * Real.cos (angle i), 0⟩

/-- Claim C8: the binary-system generator places body 0 at (-2, 0, 0)
with mass 50 and velocity (0, -1, 0) and body 1 at (2, 0, 0) with mass
50 and velocity (0, 1, 0), and, given planet-mass draws in [0.1, 0.5],
every generated body's mass is non-negative. -/
theorem binary_system_init (n : ℕ) (angle radius zang massd : ℕ → ℝ)
    (hn : 2 ≤ n) (hm : ∀ i, 0.1 ≤ massd i ∧ massd i ≤ 0.5) :
    initializeParticlesBinaryPos angle radius zang massd 0 = ⟨-2, 0, 0, 50⟩ ∧
    initializeParticlesBinaryVel angle radius 0 = ⟨0, -1, 0⟩ ∧
    initializeParticlesBinaryPos angle radius zang massd 1 = ⟨2, 0, 0, 50⟩ ∧
    initializeParticlesBinaryVel angle radius 1 = ⟨0, 1, 0⟩ ∧
    ∀ i, i < n → 0 ≤ (initializeParticlesBinaryPos angle radius zang massd i).w := by
  refine ⟨rfl, rfl, rfl, rfl, ?_⟩
  intro i _
  unfold initializeParticlesBinaryPos
  by_cases h0 : i = 0
  · rw [if_pos h0]
    norm_num
  · rw [if_neg h0]
    by_cases h1 : i = 1
    · rw [if_pos h1]
      norm_num
    · rw [if_neg h1]
      have := (hm i).1
      dsimp only
      linarith

/-- Witness for Claim C8 at n = 2 with constant draw streams. -/
theorem binary_system_init_witness :
    ((2 : ℕ) ≤ 2 ∧
        (∀ i : ℕ, (0.1 : ℝ) ≤ (fun _ : ℕ => (0.2 : ℝ)) i ∧
          (fun _ : ℕ => (0.2 : ℝ)) i ≤ 0.5)) ∧
      (initializeParticlesBinaryPos (fun _ => 0) (fun _ => 3) (fun _ => 0)
          (fun _ => 0.2) 0 = ⟨-2, 0, 0, 50⟩ ∧
       initializeParticlesBinaryVel (fun _ => 0) (fun _ => 3) 0 = ⟨0, -1, 0⟩ ∧
       initializeParticlesBinaryPos (fun _ => 0) (fun _ => 3) (fun _ => 0)
          (fun _ => 0.2) 1 = ⟨2, 0, 0, 50⟩ ∧
       initializeParticlesBinaryVel (fun _ => 0) (fun _ => 3) 1 = ⟨0, 1, 0⟩ ∧
       ∀ i, i < 2 →
        0 ≤ (initializeParticlesBinaryPos (fun _ => 0) (fun _ => 3) (fun _ => 0)
              (fun _ => 0.2) i).w) :=
  ⟨⟨le_rfl, fun i => by norm_num⟩,
   binary_system_init 2 (fun _ => 0) (fun _ => 3) (fun _ => 0) (fun _ => 0.2)
     le_rfl (fun i => by norm_num)⟩
